import Mathlib

/-!
Verification of the ColabFold serialization and entity-assembly engine
(`colabfold/utils.py`): the mmCIF document writer `CFMMCIFIO._save_dict`
and the AlphaFold3 input assembler `AF3Utils`.

The Python source is shallowly embedded: Python `int` is `Int`, Python lists
are `List`, the dynamic "string or list" mmCIF values are a sum type,
exceptions are `Except`, and the incremental file writes of the document
writer are an ordered list of written chunks (an error carries the chunks
written before the failure).  `while` loops are embedded with a fuel
argument sized large enough, with the unfolding equation proved as a lemma.
-/

set_option maxHeartbeats 1000000
set_option maxRecDepth 100000

-- Decidable equality for `Except`, used to evaluate embedded fallible code.
deriving instance DecidableEq for Except

/-- A single-quote character as a string (used to build quoted mmCIF values). -/
def squote : String := String.mk [Char.ofNat 39]

/-- `n` spaces, modelling Python's `" " * n` (which is empty for `n = 0`). -/
def spaces (n : Nat) : String := String.mk (List.replicate n ' ')

/-! ## Chain-Identifier Allocator (`AF3Utils._int_id_to_str_id`) -/

/-- Fuel-based embedding of the loop body of `_int_id_to_str_id`:
`while i >= 0: output.append(chr(i % 26 + ord("A"))); i = i // 26 - 1`.
The loop variable stays nonnegative at entry of every iteration, so it is a
`Nat` here; the continuation condition `i // 26 - 1 >= 0` is `¬ i < 26`. -/
def digitsF : Nat → Nat → List Char
  | 0, _ => []
  | fuel + 1, i => Char.ofNat (i % 26 + 65) :: (if i < 26 then [] else digitsF fuel (i / 26 - 1))

/-- The letter list emitted by the allocator loop for loop entry value `i`. -/
def digits (i : Nat) : List Char := digitsF (i + 1) i

/-- The allocated letter code for a (positive) ordinal `i`: the Python function
first replaces `i` by `i - 1` and then joins the emitted letters. -/
def idStr (i : Int) : String := String.mk (digits (i - 1).toNat)

/-- `AF3Utils._int_id_to_str_id`: rejects non-positive ordinals, otherwise
emits the bijective base-26 letter code, least-significant digit first. -/
def int_id_to_str_id (i : Int) : Except String String :=
  if i ≤ 0 then
    .error ("int_id_to_str_id: Only positive integers allowed, got " ++ toString i)
  else .ok (idStr i)

theorem digitsF_fuel (fuel fuel' i : Nat) (h : i < fuel) (h' : i < fuel') :
    digitsF fuel i = digitsF fuel' i := by
  induction fuel generalizing fuel' i with
  | zero => omega
  | succ f ih =>
    cases fuel' with
    | zero => omega
    | succ f' =>
      simp only [digitsF]
      by_cases hi : i < 26
      · simp [hi]
      · have hd : i / 26 < i := Nat.div_lt_self (by omega) (by omega)
        simp [hi, ih f' (i / 26 - 1) (by omega) (by omega)]

/-- The defining recursion of `digits`, fuel eliminated. -/
theorem digits_eq (i : Nat) :
    digits i = Char.ofNat (i % 26 + 65) :: (if i < 26 then [] else digits (i / 26 - 1)) := by
  unfold digits
  conv_lhs => rw [digitsF]
  by_cases hi : i < 26
  · simp [hi]
  · have hd : i / 26 < i := Nat.div_lt_self (by omega) (by omega)
    simp [hi, digitsF_fuel i (i / 26 - 1 + 1) (i / 26 - 1) (by omega) (by omega)]

/-! ## Spec-side allocator (§4.1 of the spec, for the refinement claim C3)

The spec words: "let `i = ordinal − 1`; while `i ≥ 0`, append letter for
`i mod 26`, then set `i = (i div 26) − 1`; stop when `i < 0`.  Concatenate
appended letters in emission order (not reversed)."  `div`/`mod` are Python's
floor division and modulus, i.e. `Int.fdiv`/`Int.fmod`. -/

/-- Fuel-based embedding of the spec's emission loop, on integers. -/
def specEmitF : Nat → Int → List Char
  | 0, _ => []
  | fuel + 1, i =>
    if i < 0 then []
    else Char.ofNat ((Int.fmod i 26).toNat + 65) :: specEmitF fuel (Int.fdiv i 26 - 1)

/-- The letters the spec's loop emits starting from `i = ordinal - 1`. -/
def specEmit (i : Int) : List Char := specEmitF (i.toNat + 1) i

/-- The spec's `allocate(ordinal)`: run the loop from `ordinal − 1` and
concatenate the letters in emission order. -/
def specAllocate (ordinal : Int) : String := String.mk (specEmit (ordinal - 1))

theorem specEmitF_neg (fuel : Nat) (i : Int) (h : i < 0) : specEmitF fuel i = [] := by
  cases fuel with
  | zero => rfl
  | succ f => simp [specEmitF, h]

theorem specEmitF_fuel (fuel fuel' : Nat) (i : Int) (h : i.toNat < fuel) (h' : i.toNat < fuel') :
    specEmitF fuel i = specEmitF fuel' i := by
  induction fuel generalizing fuel' i with
  | zero => omega
  | succ f ih =>
    cases fuel' with
    | zero => omega
    | succ f' =>
      by_cases hi : i < 0
      · rw [specEmitF_neg _ _ hi, specEmitF_neg _ _ hi]
      · simp only [specEmitF, if_neg hi]
        have hfd : Int.fdiv i 26 = i / 26 := Int.fdiv_eq_ediv i (by norm_num)
        by_cases hj : Int.fdiv i 26 - 1 < 0
        · rw [specEmitF_neg _ _ hj, specEmitF_neg _ _ hj]
        · have hlt : (Int.fdiv i 26 - 1).toNat < i.toNat := by
            rw [hfd] at hj ⊢
            omega
          rw [ih f' (Int.fdiv i 26 - 1) (by omega) (by omega)]

/-- The spec loop agrees with the code loop on every (nonnegative) entry value. -/
theorem specEmit_eq_digits : ∀ (n : Nat) (i : Int), 0 ≤ i → i.toNat = n → specEmit i = digits n := by
  intro n
  induction n using Nat.strong_induction_on with
  | _ n ih =>
    intro i h hn
    have hni : i = (n : Int) := by omega
    subst hni
    rw [digits_eq]
    unfold specEmit
    rw [specEmitF]
    simp only [if_neg (by omega : ¬ (n : Int) < 0)]
    have hfd : Int.fdiv (n : Int) 26 = (n : Int) / 26 := Int.fdiv_eq_ediv _ (by norm_num)
    have hfm : Int.fmod (n : Int) 26 = (n : Int) % 26 := Int.fmod_eq_emod _ (by norm_num)
    have hmod : (Int.fmod (n : Int) 26).toNat = n % 26 := by
      rw [hfm]
      omega
    rw [hmod]
    congr 1
    by_cases hn26 : n < 26
    · have : Int.fdiv (n : Int) 26 - 1 < 0 := by
        rw [hfd]
        omega
      rw [specEmitF_neg _ _ this, if_pos hn26]
    · rw [if_neg hn26]
      have hdivlt : n / 26 < n := Nat.div_lt_self (by omega) (by omega)
      have harg : Int.fdiv (n : Int) 26 - 1 = ((n / 26 - 1 : Nat) : Int) := by
        rw [hfd]
        omega
      have htn : (Int.fdiv (n : Int) 26 - 1).toNat = n / 26 - 1 := by
        rw [harg]
        omega
      have h0 : (0 : Int) ≤ Int.fdiv (n : Int) 26 - 1 := by
        rw [hfd]
        omega
      have hrec := ih (n / 26 - 1) (by omega) (Int.fdiv (n : Int) 26 - 1) h0 htn
      rw [← hrec]
      unfold specEmit
      exact specEmitF_fuel _ _ _ (by omega) (by omega)

/-! ## Allocator injectivity -/

/-- Decode a letter list back to the loop entry value it was emitted from
(`-1` for the empty list, matching a loop that would run zero times). -/
def lettersVal : List Char → Int
  | [] => -1
  | c :: cs => ((c.toNat : Int) - 65) + 26 * (lettersVal cs + 1)

theorem char_toNat_ofNat (n : Nat) (h : n < 55296) : (Char.ofNat n).toNat = n := by
  have hv : n.isValidChar := Or.inl h
  simp only [Char.ofNat, dif_pos hv]
  rfl

theorem lettersVal_cons (c : Char) (cs : List Char) :
    lettersVal (c :: cs) = ((c.toNat : Int) - 65) + 26 * (lettersVal cs + 1) := rfl

theorem lettersVal_digits (n : Nat) : lettersVal (digits n) = n := by
  induction n using Nat.strong_induction_on with
  | _ n ih =>
    rw [digits_eq]
    by_cases hn : n < 26
    · rw [if_pos hn, lettersVal_cons]
      rw [char_toNat_ofNat (n % 26 + 65) (by omega)]
      have hm : n % 26 = n := Nat.mod_eq_of_lt hn
      have hv : lettersVal [] = -1 := rfl
      rw [hv]
      push_cast
      omega
    · rw [if_neg hn]
      have hdivlt : n / 26 < n := Nat.div_lt_self (by omega) (by omega)
      rw [lettersVal_cons]
      rw [char_toNat_ofNat (n % 26 + 65) (by omega), ih (n / 26 - 1) (by omega)]
      have h1 : 1 ≤ n / 26 := Nat.one_le_div_iff (by omega) |>.mpr (by omega)
      have hmd : n % 26 + 26 * (n / 26) = n := Nat.mod_add_div n 26
      push_cast [Nat.cast_sub h1]
      push_cast at hmd
      linarith

theorem digits_inj {m n : Nat} (h : digits m = digits n) : m = n := by
  have hm := lettersVal_digits m
  rw [h, lettersVal_digits] at hm
  exact_mod_cast hm.symm

theorem idStr_inj {i j : Int} (hi : 0 < i) (hj : 0 < j) (h : idStr i = idStr j) : i = j := by
  unfold idStr at h
  have hd : digits (i - 1).toNat = digits (j - 1).toNat := congrArg String.data h
  have := digits_inj hd
  omega

/-! ## Entity Assembler data model (`AF3Utils`) -/

/-- A JSON string-or-null value; the two distinct "no alignment" sentinels. -/
inductive StrOrNull
  | str (s : String)
  | nullv
deriving DecidableEq, Repr

/-- A protein entity block, as built by `make_af3_input`:
`{"protein": {"id": ..., "sequence": ..., "modifications": [],
"templates": [], "unpairedMsa": ..., "pairedMsa": ...}}`. -/
structure ProteinEntity where
  id : List String
  sequence : String
  modifications : List String
  templates : List String
  unpairedMsa : StrOrNull
  pairedMsa : StrOrNull
deriving DecidableEq, Repr

/-- The value stored under an extra molecule's AF3 field: `[sequence]` for a
chemical-component entity, the raw string for all other kinds. -/
inductive ExtraSeqVal
  | str (s : String)
  | strList (l : List String)
deriving DecidableEq, Repr

/-- An extra (non-protein) entity block, as built by `add_extra_molecules`:
`{upperclass: {"id": ..., af3code: ..., ["unpairedMsa": None]}}`; `none` in
`unpairedMsa` means the key is absent. -/
structure ExtraEntity where
  upperclass : String
  id : List String
  af3code : String
  seqval : ExtraSeqVal
  unpairedMsa : Option StrOrNull
deriving DecidableEq, Repr

/-- One element of the assembled `"sequences"` list. -/
inductive Entity
  | protein (p : ProteinEntity)
  | extra (e : ExtraEntity)
deriving DecidableEq, Repr

/-- The assembled AF3 input record (`content` in the source). -/
structure Af3Content where
  dialect : String
  version : Nat
  name : String
  sequences : List Entity
  modelSeeds : List Nat
  bondedAtomPairs : Option Unit
  userCCD : Option Unit
deriving DecidableEq, Repr

/-- The `MolType` enum. -/
inductive MolType
  | RNA
  | DNA
  | CCD
  | SMILES
deriving DecidableEq, Repr

/-- `MolType.af3code`: the first component of each enum value. -/
def MolType.af3code : MolType → String
  | .RNA => "sequence"
  | .DNA => "sequence"
  | .CCD => "ccdCodes"
  | .SMILES => "smiles"

/-- `MolType.upperclass`: the second component of each enum value. -/
def MolType.upperclass : MolType → String
  | .RNA => "rna"
  | .DNA => "dna"
  | .CCD => "ligand"
  | .SMILES => "ligand"

/-- Python list indexing `l[i]`, raising `IndexError` when out of range. -/
def pyGet {α : Type} (l : List α) (i : Nat) : Except String α :=
  match l.get? i with
  | some a => .ok a
  | none => .error "IndexError: list index out of range"

/-- `if msas and msas[i]: field = msas[i] else: field = ""` — the alignment
field written for a protein entity (`unpairedmsa`/`pairedmsa` branches of
`make_af3_input`).  The truthiness test short-circuits: the index is only
evaluated when the list is non-empty. -/
def msaField (msas : List String) (i : Nat) : Except String StrOrNull :=
  if msas = [] then .ok (.str "")
  else do
    let m ← pyGet msas i
    if m ≠ "" then .ok (.str m) else .ok (.str "")

/-- `mapM` for `Except`, written out (models a Python list comprehension whose
body may raise: elements are produced in order, the first exception wins). -/
def exceptMapM {ε α β : Type} (f : α → Except ε β) : List α → Except ε (List β)
  | [] => .ok []
  | a :: rest => do
    let b ← f a
    let bs ← exceptMapM f rest
    .ok (b :: bs)

/-- `[self._int_id_to_str_id(chain_id_count + j + 1) for j in range(n)]`
(`range` of a non-positive Python int is empty, hence `n.toNat`). -/
def mkChainIds (count : Int) (n : Int) : Except String (List String) :=
  exceptMapM (fun (j : Nat) => int_id_to_str_id (count + (j : Int) + 1)) (List.range n.toNat)

/-- The loop of `make_af3_input` over `range(len(query_seqs_unique))`:
structural recursion on the remaining unique sequences, with the running
index `i` and chain-identifier counter threaded through. -/
def buildProteins (cards : List Int) (unpairedmsa pairedmsa : List String) :
    List String → Nat → Int → Except String (List Entity × Int)
  | [], _, count => .ok ([], count)
  | qs :: rest, i, count => do
    let c ← pyGet cards i
    let ids ← mkChainIds count c
    let u ← msaField unpairedmsa i
    let p ← msaField pairedmsa i
    let (ents, final) ← buildProteins cards unpairedmsa pairedmsa rest (i + 1) (count + c)
    .ok (.protein ⟨ids, qs, [], [], u, p⟩ :: ents, final)

/-- `AF3Utils.make_af3_input`. -/
def make_af3_input (name : String) (query_seqs_unique : List String)
    (query_seqs_cardinality : List Int) (unpairedmsa pairedmsa : List String) :
    Except String Af3Content := do
  let (sequences, _) ←
    buildProteins query_seqs_cardinality unpairedmsa pairedmsa query_seqs_unique 0 0
  .ok { dialect := "alphafold3", version := 2, name := name, sequences := sequences,
        modelSeeds := [1], bondedAtomPairs := none, userCCD := none }

/-- The chain-count loop of `add_extra_molecules`:
`for sequence in content["sequences"]: chain_id_count += len(sequence["protein"]["id"])`;
indexing a non-protein block with `"protein"` raises `KeyError`. -/
def countIds : List Entity → Int → Except String Int
  | [], acc => .ok acc
  | .protein p :: rest, acc => countIds rest (acc + p.id.length)
  | .extra _ :: _, _ => .error "KeyError: protein"

/-- The key of the inner deduplication dictionary: `(moltype, sequence)`. -/
abbrev MolKey := MolType × String

/-- Insert into the inner dict `{(moltype, sequence): copies}`: a fresh key is
appended (dict insertion order), an existing key has the copies summed. -/
def updInner (l : List (MolKey × Int)) (k : MolKey) (c : Int) : List (MolKey × Int) :=
  match l with
  | [] => [(k, c)]
  | (k', c') :: rest => if k' = k then (k', c' + c) :: rest else (k', c') :: updInner rest k c

/-- Insert into the outer dict `{upperclass: {(moltype, sequence): copies}}`. -/
def updOuter (l : List (String × List (MolKey × Int))) (uc : String) (k : MolKey) (c : Int) :
    List (String × List (MolKey × Int)) :=
  match l with
  | [] => [(uc, [(k, c)])]
  | (uc', inner) :: rest =>
    if uc' = uc then (uc', updInner inner k c) :: rest
    else (uc', inner) :: updOuter rest uc k c

/-- The grouping loop of `add_extra_molecules` building `unique_molecules`. -/
def groupMolecules (molecules : List (MolType × String × Int)) :
    List (String × List (MolKey × Int)) :=
  molecules.foldl (fun acc m => updOuter acc m.1.upperclass (m.1, m.2.1) m.2.2) []

/-- The `moldict` built for one deduplicated extra entity: chemical-component
entities store `[sequence]` under their field, every other kind stores the raw
string, and RNA additionally gets `"unpairedMsa": None`. -/
def mkExtraEntity (uc : String) (mt : MolType) (sequence : String) (ids : List String) :
    ExtraEntity :=
  { upperclass := uc, id := ids, af3code := mt.af3code,
    seqval := if mt = .CCD then .strList [sequence] else .str sequence,
    unpairedMsa := if mt = .RNA then some .nullv else none }

/-- The inner appending loop of `add_extra_molecules` over one upper-class's
deduplicated entities, threading the chain-identifier counter. -/
def buildExtrasInner (uc : String) :
    List (MolKey × Int) → Int → Except String (List Entity × Int)
  | [], count => .ok ([], count)
  | ((mt, sequence), copies) :: rest, count => do
    let ids ← mkChainIds count copies
    let (ents, final) ← buildExtrasInner uc rest (count + copies)
    .ok (.extra (mkExtraEntity uc mt sequence ids) :: ents, final)

/-- The outer appending loop of `add_extra_molecules` over the upper-classes. -/
def buildExtras :
    List (String × List (MolKey × Int)) → Int → Except String (List Entity × Int)
  | [], count => .ok ([], count)
  | (uc, inner) :: rest, count => do
    let (ents1, c1) ← buildExtrasInner uc inner count
    let (ents2, c2) ← buildExtras rest c1
    .ok (ents1 ++ ents2, c2)

/-- `AF3Utils.add_extra_molecules`. -/
def add_extra_molecules (content : Af3Content) (molecules : List (MolType × String × Int)) :
    Except String Af3Content := do
  let count ← countIds content.sequences 0
  let um := groupMolecules molecules
  if um = [] then .ok content
  else do
    let (extras, _) ← buildExtras um count
    .ok { content with sequences := content.sequences ++ extras }

/-- `AF3Utils.__init__`: build the base record, then add the extra molecules
when the argument is truthy (neither `None` nor the empty list). -/
def af3utils_content (name : String) (query_seqs_unique : List String)
    (query_seqs_cardinality : List Int) (unpairedmsa pairedmsa : List String)
    (extra_molecules : Option (List (MolType × String × Int))) : Except String Af3Content := do
  let content ← make_af3_input name query_seqs_unique query_seqs_cardinality unpairedmsa pairedmsa
  match extra_molecules with
  | some mols => if mols ≠ [] then add_extra_molecules content mols else .ok content
  | none => .ok content

/-! ## Document Writer data model (`CFMMCIFIO._save_dict`)

The value table `self.dic` is an ordered mapping from keys to values that are
either a Python `str` or a list of strings; the underlying structure is a
model/chain/residue hierarchy.  Output is modelled as the ordered list of the
strings passed to `out_file.write`; a failure carries the chunks written
before the error was raised. -/

/-- A mmCIF table value: a single string or a list of strings. -/
inductive CifVal
  | str (s : String)
  | list (l : List String)
deriving DecidableEq, Repr

/-- The ordered value table `self.dic`. -/
abbrev CifDict := List (String × CifVal)

/-- The exceptions `_save_dict` can raise. -/
inductive SaveError
  | invalidKey (k : String)
  | inconsistentSize (kf : String)
  | invalidType (k : String)
  | keyError (k : String)
  | indexError (k : String)
  | typeMismatch (k : String)
  | typeErrorConcat
  | nameErrorDataVal
deriving DecidableEq, Repr

/-- `re.split(r"\.", key)`: split at every dot (empty parts preserved). -/
def splitDotsAux : List Char → List Char → List String
  | [], acc => [String.mk acc.reverse]
  | c :: cs, acc =>
    if c = '.' then String.mk acc.reverse :: splitDotsAux cs []
    else splitDotsAux cs (c :: acc)

/-- Split a key on the category/field separator. -/
def splitDots (s : String) : List String := splitDotsAux s.data []

/-- Append a field to its category's list in `key_lists` (a fresh category is
appended at the end, matching dict insertion order). -/
def addField (kls : List (String × List String)) (cat fld : String) :
    List (String × List String) :=
  match kls with
  | [] => [(cat, [fld])]
  | (c, fs) :: rest =>
    if c = cat then (c, fs ++ [fld]) :: rest else (c, fs) :: addField rest cat fld

/-- The first loop of `_save_dict`: set `data_val` aside and split every other
key into (category, field), raising `ValueError` for a key that does not
split into exactly two parts. -/
def buildKeyLists : CifDict → Option CifVal → List (String × List String) →
    Except SaveError (Option CifVal × List (String × List String))
  | [], dataVal, kls => .ok (dataVal, kls)
  | (key, v) :: rest, dataVal, kls =>
    if key = "data_" then buildKeyLists rest (some v) kls
    else
      match splitDots key with
      | [c, f] => buildKeyLists rest dataVal (addField kls c f)
      | _ => .error (.invalidKey key)

/-- The canonical `_atom_site` field order (`mmcif_order`). -/
def mmcif_order_atom_site : List String :=
  ["group_PDB", "id", "type_symbol", "label_atom_id", "label_alt_id",
   "label_comp_id", "label_asym_id", "label_entity_id", "label_seq_id",
   "pdbx_PDB_ins_code", "Cartn_x", "Cartn_y", "Cartn_z", "occupancy",
   "B_iso_or_equiv", "pdbx_formal_charge", "auth_seq_id", "auth_comp_id",
   "auth_asym_id", "auth_atom_id", "pdbx_PDB_model_num"]

/-- `mmcif_order[key].index(i)` with the `ValueError` handler: unknown fields
sort after all known ones. -/
def fieldIndex (f : String) : Nat :=
  match mmcif_order_atom_site.findIdx? (fun x => x = f) with
  | some n => n
  | none => mmcif_order_atom_site.length

/-- Ordering of the `(index, field)` pairs in `sorted(zip(inds, key_list))`:
Python compares tuples lexicographically. -/
def pairLe (a b : Nat × String) : Bool :=
  a.1 < b.1 || (a.1 = b.1 && !(b.2 < a.2))

/-- Insertion of one pair into a sorted list (stable w.r.t. `pairLe`). -/
def insertPair (a : Nat × String) : List (Nat × String) → List (Nat × String)
  | [] => [a]
  | b :: rest => if pairLe a b then a :: b :: rest else b :: insertPair a rest

/-- A sort with the same specification as Python's `sorted` for this use
(ties arise only between fully equal pairs, so stability is irrelevant). -/
def sortPairs : List (Nat × String) → List (Nat × String)
  | [] => []
  | a :: rest => insertPair a (sortPairs rest)

/-- The field re-ordering step: only the `_atom_site` category has an entry in
`mmcif_order`. -/
def reorderFields (cat : String) (fs : List String) : List String :=
  if cat = "_atom_site" then (sortPairs ((fs.map fieldIndex).zip fs)).map (fun p => p.2)
  else fs

/-- Python dict lookup on the (unique-keyed) table: first match. -/
def dicFind (dic : CifDict) (k : String) : Option CifVal :=
  match dic.find? (fun e => e.1 = k) with
  | some e => some e.2
  | none => none

/-- Python iteration over a table value: a string yields its characters as
one-character strings, a list yields its items. -/
def cifIter : CifVal → List String
  | .str s => s.data.map (fun c => String.mk [c])
  | .list l => l

/-- Iteration over `self.dic.get(key, ())`: the default is empty. -/
def cifIterOpt : Option CifVal → List String
  | none => []
  | some v => cifIter v

/-- `dict(zip(auth, label))` built by `_save_dict`. -/
def asymMapOf (dic : CifDict) : List (String × String) :=
  (cifIterOpt (dicFind dic "_atom_site.auth_asym_id")).zip
    (cifIterOpt (dicFind dic "_atom_site.label_asym_id"))

/-- Lookup in a `dict(zip(...))`: a later duplicate key overwrites an earlier
one, so search the tail first. -/
def dictZipFind (m : List (String × String)) (k : String) : Option String :=
  match m with
  | [] => none
  | (a, b) :: rest =>
    match dictZipFind rest k with
    | some r => some r
    | none => if a = k then some b else none

/-- A residue of the structural model: its hetero flag (first component of
`residue.get_id()`) and residue name. -/
structure Residue where
  het : String
  resname : String
deriving DecidableEq, Repr

/-- A chain: its identifier and residues. -/
structure Chain where
  id : String
  residues : List Residue
deriving DecidableEq, Repr

/-- A model is a list of chains. -/
abbrev SModel := List Chain

/-- `self.structure`: a list of models. -/
abbrev BioStructure := List SModel

/-- The innermost loop of the `poly_seq` synthesis: hetero residues are
skipped and do not advance `res_idx`. -/
def residueRows (chainIdx : Nat) : List Residue → Nat → List (Nat × Nat × String × String)
  | [], _ => []
  | r :: rest, resIdx =>
    if r.het ≠ " " then residueRows chainIdx rest resIdx
    else (chainIdx, resIdx, r.resname, "n") :: residueRows chainIdx rest (resIdx + 1)

/-- The chain loop of the `poly_seq` synthesis: every chain advances
`chain_idx`, and `res_idx` restarts at 1. -/
def chainRows : List Chain → Nat → List (Nat × Nat × String × String)
  | [], _ => []
  | ch :: rest, chainIdx => residueRows chainIdx ch.residues 1 ++ chainRows rest (chainIdx + 1)

/-- The model loop of the `poly_seq` synthesis: `chain_idx` runs on across
model boundaries. -/
def modelRows : List SModel → Nat → List (Nat × Nat × String × String)
  | [], _ => []
  | m :: rest, chainIdx => chainRows m chainIdx ++ modelRows rest (chainIdx + m.length)

/-- The `poly_seq` list accumulated by `_save_dict` (`chain_idx` starts at 1). -/
def poly_seq (st : BioStructure) : List (Nat × Nat × String × String) := modelRows st 1

/-- One written `poly_seq` row: `f"{seq[0]} {seq[1]} {seq[2]}  {seq[3]}\n"`. -/
def polySeqChunk (row : Nat × Nat × String × String) : String :=
  toString row.1 ++ " " ++ toString row.2.1 ++ " " ++ row.2.2.1 ++ "  " ++ row.2.2.2 ++ "\n"

/-- Modelled from the spec: the registry of standard residue names supplied by
the upstream library (`standard_aa_names`, absent from src); the
chemical-component registry is "a fixed, model-independent table" with one row
per standard residue name. -/
def standard_aa_names : List String :=
  ["ALA", "CYS", "ASP", "GLU", "PHE", "GLY", "HIS", "ILE", "LYS", "LEU",
   "MET", "ASN", "PRO", "GLN", "ARG", "SER", "THR", "TRP", "TYR", "VAL"]

/-- One written chemical-component row: `f'{three} "peptide linking"\n'`. -/
def aaChunk (three : String) : String := three ++ " \"peptide linking\"\n"

/-- The chain loop of the asymmetric-unit registry for one model. -/
def asymChainChunks (amap : List (String × String)) : List Chain → Nat → List String
  | [], _ => []
  | ch :: rest, chainIdx =>
    (match dictZipFind amap ch.id with
     | some lbl => [lbl ++ " " ++ toString chainIdx ++ "\n"]
     | none => []) ++ asymChainChunks amap rest (chainIdx + 1)

/-- The model loop of the asymmetric-unit registry. -/
def asymModelChunks (amap : List (String × String)) : List SModel → Nat → List String
  | [], _ => []
  | m :: rest, chainIdx =>
    asymChainChunks amap m chainIdx ++ asymModelChunks amap rest (chainIdx + m.length)

/-! ## Category Formatter -/

/-- Modelled from the spec: the upstream writer's test for values needing the
multi-line (semicolon-delimited) form — "if the value contains a line break". -/
def requires_newline (v : String) : Bool := v.data.contains '\n'

/-- True when the string starts with the given character. -/
def headIs (v : String) (c : Char) : Bool :=
  match v.data with
  | [] => false
  | c' :: _ => c' = c

/-- Modelled from the spec: the upstream writer's test for values needing
single-quote wrapping — "if the value contains whitespace or a structural
token prefix". -/
def requires_quote (v : String) : Bool :=
  v.data.contains ' ' || v.data.contains '\t' || headIs v '_' || headIs v '#' ||
    headIs v (Char.ofNat 39) || headIs v '"' || v = ""

/-- Left-justify into a width, Python `"{k: <{width}}".format(...)`: pad with
spaces, never truncate. -/
def padTo (s : String) (w : Nat) : String := s ++ spaces (w - s.length)

/-- Modelled from the spec: the upstream base writer's `_format_mmcif_col`
(absent from src) — quote if needed, then right-pad to the column width
(Python's `" " * negative` is empty, matching truncated `Nat` subtraction). -/
def format_mmcif_col (val : String) (col_width : Nat) : String :=
  if requires_newline val then "\n;" ++ val ++ "\n;\n"
  else if requires_quote val then squote ++ val ++ squote ++ spaces (col_width - (val.length + 2))
  else val ++ spaces (col_width - val.length)

/-- `len()` of a table value (Python `len` of a string is its character count). -/
def cifLen : CifVal → Nat
  | .str s => s.length
  | .list l => l.length

/-- Whether a table value is a Python list. -/
def isListVal : CifVal → Bool
  | .str _ => false
  | .list _ => true

/-- Dictionary lookup `self.dic[key + "." + f]` (a miss would be `KeyError`;
unreachable for fields recorded in `key_lists`). -/
def fieldVal (dic : CifDict) (key f : String) : Except SaveError CifVal :=
  match dicFind dic (key ++ "." ++ f) with
  | some v => .ok v
  | none => .error (.keyError (key ++ "." ++ f))

/-- The consistency loop of `_save_dict`: a category mixing a list-valued
sample with a string value (or different list lengths, or a string sample
with a list value) raises `ValueError`. -/
def checkSizes (dic : CifDict) (key : String) (sampleIsList : Bool) (nVals : Nat) :
    List String → Except SaveError Unit
  | [] => .ok ()
  | f :: rest => do
    let v ← fieldVal dic key f
    let bad :=
      match sampleIsList, v with
      | true, .str _ => true
      | true, .list l => l.length ≠ nVals
      | false, .list _ => true
      | false, .str _ => false
    if bad then .error (.inconsistentSize (key ++ "." ++ f))
    else checkSizes dic key sampleIsList nVals rest

/-- The running maximum of the field-name lengths (`m` in the source). -/
def maxFieldLen : List String → Nat
  | [] => 0
  | f :: rest => max f.length (maxFieldLen rest)

/-- The single-value branch: one line per field, the padded key followed by
the formatted value (`value_no_list` is the raw string when the sample is a
string, else the single list element). -/
def singleValueChunks (dic : CifDict) (key : String) (sampleIsStr : Bool) (m : Nat) :
    List String → Except SaveError (List String)
  | [] => .ok []
  | f :: rest => do
    let v ← fieldVal dic key f
    let value_no_list ←
      match sampleIsStr, v with
      | true, .str s => Except.ok s
      | false, .list l =>
        (match l.get? 0 with
         | some s => Except.ok s
         | none => Except.error (.indexError (key ++ "." ++ f)))
      | _, _ => Except.error (.typeMismatch (key ++ "." ++ f))
    let chunk := padTo (key ++ "." ++ f) (key.length + m + 4)
      ++ format_mmcif_col value_no_list value_no_list.length ++ "\n"
    let cs ← singleValueChunks dic key sampleIsStr m rest
    .ok (chunk :: cs)

/-- The rendered width of one value in a loop column (`+2` when quoting adds
the two quote marks). -/
def lenVal (v : String) : Nat :=
  v.length + (if requires_quote v && !requires_newline v then 2 else 0)

/-- The running maximum of a list of widths (starting from 0). -/
def maxNat : List Nat → Nat
  | [] => 0
  | n :: rest => max n (maxNat rest)

/-- The column width of a loop field: the maximum rendered width of its
values (starting from 0). -/
def colWidthOf (v : CifVal) : Nat := maxNat ((cifIter v).map lenVal)

/-- One emitted row of a loop block: every field's value formatted to its
column width plus one, then the newline write. -/
def rowFor (fvs : List (String × CifVal)) (idx : Nat) : List String :=
  fvs.map (fun fv => format_mmcif_col (((cifIter fv.2).get? idx).getD "") (colWidthOf fv.2 + 1))
    ++ ["\n"]

/-- The loop branch: the `loop_` line, one key line per field, then `n_vals`
rows. -/
def loopChunks (dic : CifDict) (key : String) (fields : List String) (nVals : Nat) :
    Except SaveError (List String) := do
  let fvs ← exceptMapM (fun f => do
    let v ← fieldVal dic key f
    Except.ok (f, v)) fields
  .ok (["loop_\n"] ++ fvs.map (fun fv => key ++ "." ++ fv.1 ++ "\n")
    ++ ((List.range nVals).map (rowFor fvs)).flatten)

/-- One category block of `_save_dict`: validate, then render either the
single-value form or the loop form, each block closed by a `#` line. -/
def writeCategory (dic : CifDict) (key : String) (fields : List String) :
    Except SaveError (List String) := do
  let f0 ←
    match fields with
    | f :: _ => Except.ok f
    | [] => Except.error (.indexError key)
  let sample ← fieldVal dic key f0
  let nVals := cifLen sample
  let _ ← checkSizes dic key (isListVal sample) nVals fields
  match sample with
  | .str _ => do
    let cs ← singleValueChunks dic key true (maxFieldLen fields) fields
    .ok (cs ++ ["#\n"])
  | .list l =>
    if l.length = 1 then do
      let cs ← singleValueChunks dic key false (maxFieldLen fields) fields
      .ok (cs ++ ["#\n"])
    else do
      let cs ← loopChunks dic key fields nVals
      .ok (cs ++ ["#\n"])

/-! ## Document Writer orchestration -/

/-- The literal `CIF_REVISION_DATE` block. -/
def CIF_REVISION_DATE : String :=
  "loop_\n_pdbx_audit_revision_history.ordinal\n" ++
  "_pdbx_audit_revision_history.data_content_type\n" ++
  "_pdbx_audit_revision_history.major_revision\n" ++
  "_pdbx_audit_revision_history.minor_revision\n" ++
  "_pdbx_audit_revision_history.revision_date\n1 " ++
  squote ++ "Structure model" ++ squote ++ " 1 0 1971-01-01\n#\n"

/-- The literal `_entity_poly_seq` loop header written by `_save_dict`. -/
def POLY_SEQ_HEADER : String :=
  "loop_\n_entity_poly_seq.entity_id\n_entity_poly_seq.num\n" ++
  "_entity_poly_seq.mon_id\n_entity_poly_seq.hetero\n#\n"

/-- The literal `_chem_comp` loop header written by `_save_dict`. -/
def CHEM_COMP_HEADER : String := "loop_\n_chem_comp.id\n_chem_comp.type\n#\n"

/-- The literal `_struct_asym` loop header written by `_save_dict`. -/
def STRUCT_ASYM_HEADER : String := "loop_\n_struct_asym.id\n_struct_asym.entity_id\n#\n"

/-- Python truthiness of a table value (`if data_val:`): a non-empty string
or a non-empty list. -/
def cifTruthy : CifVal → Bool
  | .str s => s ≠ ""
  | .list l => l ≠ []

/-- The chunks written inside the `if data_val:` block: the `data_` line and
the three synthesized categories (polymer-sequence listing, chemical-component
registry, asymmetric-unit registry). -/
def dataHeaderChunks (dic : CifDict) (st : BioStructure) (s : String) : List String :=
  ["data_" ++ s ++ "\n#\n", POLY_SEQ_HEADER]
    ++ (poly_seq st).map polySeqChunk ++ ["#\n", CHEM_COMP_HEADER]
    ++ standard_aa_names.map aaChunk ++ ["#\n", STRUCT_ASYM_HEADER]
    ++ asymModelChunks (asymMapOf dic) st 1 ++ ["#\n"]

/-- The final loop of `_save_dict` over the categories; the revision-history
stamp write sits inside the loop body, after each category's closing `#`
line.  An error carries the chunks already written. -/
def writeCategories (dic : CifDict) :
    List (String × List String) → List String → Except (SaveError × List String) (List String)
  | [], acc => .ok acc
  | (key, fields) :: rest, acc =>
    match writeCategory dic key fields with
    | .error e => .error (e, acc)
    | .ok cs => writeCategories dic rest (acc ++ cs ++ [CIF_REVISION_DATE])

/-- `CFMMCIFIO._save_dict`: build `key_lists` (raising on malformed keys),
reorder known categories, then write — referencing `data_val` raises
`NameError` when no `data_` key was seen, an untruthy `data_val` skips the
synthesized block, and `"data_" + data_val` on a list raises `TypeError`. -/
def save_dict (dic : CifDict) (st : BioStructure) :
    Except (SaveError × List String) (List String) :=
  match buildKeyLists dic none [] with
  | .error e => .error (e, [])
  | .ok (dataVal, kls0) =>
    let kls := kls0.map (fun e => (e.1, reorderFields e.1 e.2))
    match dataVal with
    | none => .error (SaveError.nameErrorDataVal, [])
    | some dv =>
      if cifTruthy dv then
        match dv with
        | .str s => writeCategories dic kls (dataHeaderChunks dic st s)
        | .list _ => .error (SaveError.typeErrorConcat, [])
      else writeCategories dic kls []

/-! ## Spec-side polymer-sequence listing (§4.3, for claim C9) -/

/-- 1-based position tagging, used to phrase the spec's "1-based position". -/
def withPos {α : Type} : Nat → List α → List (Nat × α)
  | _, [] => []
  | k, a :: rest => (k, a) :: withPos (k + 1) rest

/-- The spec's polymer-sequence listing: "one row per non-hetero residue,
columns (entity ordinal = 1-based chain position across all models/chains,
residue ordinal = 1-based position within its chain, residue name, a constant
non-hetero flag); hetero residues are skipped entirely and do not consume a
residue ordinal". -/
def specPolySeq (st : BioStructure) : List (Nat × Nat × String × String) :=
  (withPos 1 st.flatten).flatMap (fun p =>
    (withPos 1 (p.2.residues.filter (fun r => r.het = " "))).map
      (fun q => (p.1, q.1, q.2.resname, "n")))

/-! ## Lemmas: `Except` plumbing -/

theorem exceptBind_ok {ε α β : Type} {x : Except ε α} {f : α → Except ε β} {b : β}
    (h : (x >>= f) = .ok b) : ∃ a, x = .ok a ∧ f a = .ok b := by
  cases x with
  | error e => simp [Bind.bind, Except.bind] at h
  | ok a => exact ⟨a, rfl, by simpa [Bind.bind, Except.bind] using h⟩

theorem exceptMapM_ok_of {ε α β : Type} (f : α → Except ε β) (g : α → β) :
    ∀ (l : List α), (∀ a ∈ l, f a = .ok (g a)) → exceptMapM f l = .ok (l.map g)
  | [], _ => rfl
  | a :: rest, h => by
    have ha := h a (List.mem_cons_self a rest)
    have hr := exceptMapM_ok_of f g rest (fun x hx => h x (List.mem_cons_of_mem a hx))
    simp [exceptMapM, ha, hr, Bind.bind, Except.bind, List.map]

theorem exceptMapM_ok_inv {ε α β : Type} (f : α → Except ε β) :
    ∀ {l : List α} {bs : List β}, exceptMapM f l = .ok bs →
      List.Forall₂ (fun a b => f a = .ok b) l bs := by
  intro l
  induction l with
  | nil =>
    intro bs h
    simp only [exceptMapM] at h
    cases h
    exact List.Forall₂.nil
  | cons a rest ih =>
    intro bs h
    simp only [exceptMapM] at h
    obtain ⟨b, hb, h2⟩ := exceptBind_ok h
    obtain ⟨cs, hcs, h3⟩ := exceptBind_ok h2
    cases h3
    exact List.Forall₂.cons hb (ih hcs)

theorem forall₂_eq_map {α β : Type} {p : α → β → Prop} (g : α → β) :
    ∀ {l : List α} {bs : List β}, List.Forall₂ p l bs →
      (∀ a b, p a b → b = g a) → bs = l.map g := by
  intro l bs h hg
  induction h with
  | nil => rfl
  | cons hab _ ih => simp [List.map, ih, hg _ _ hab]

theorem forall₂_mem {α β : Type} {p : α → β → Prop} :
    ∀ {l : List α} {bs : List β}, List.Forall₂ p l bs → ∀ a ∈ l, ∃ b ∈ bs, p a b := by
  intro l bs h
  induction h with
  | nil => intro a ha; cases ha
  | cons hab hrest ih =>
    intro a ha
    rcases List.mem_cons.mp ha with h1 | h2
    · subst h1
      exact ⟨_, List.mem_cons_self _ _, hab⟩
    · obtain ⟨b, hb, hpb⟩ := ih a h2
      exact ⟨b, List.mem_cons_of_mem _ hb, hpb⟩

/-! ## Lemmas: the allocator and `mkChainIds` -/

theorem int_id_ok_inv {i : Int} {s : String} (h : int_id_to_str_id i = .ok s) :
    0 < i ∧ s = idStr i := by
  unfold int_id_to_str_id at h
  by_cases hi : i ≤ 0
  · simp [hi] at h
  · simp [hi] at h
    exact ⟨by omega, h.symm⟩

theorem int_id_ok_of {i : Int} (h : 0 < i) : int_id_to_str_id i = .ok (idStr i) := by
  unfold int_id_to_str_id
  simp [show ¬ i ≤ 0 by omega]

theorem mkChainIds_ok_of (count n : Int) (h : 0 ≤ count) :
    mkChainIds count n = .ok ((List.range n.toNat).map (fun (j : Nat) => idStr (count + (j : Int) + 1))) := by
  apply exceptMapM_ok_of
  intro j hj
  have hj0 : (0 : Int) ≤ (j : Int) := by exact_mod_cast Nat.zero_le j
  exact int_id_ok_of (by omega)

theorem mkChainIds_ok_inv {count n : Int} {ids : List String}
    (h : mkChainIds count n = .ok ids) :
    ids = (List.range n.toNat).map (fun (j : Nat) => idStr (count + (j : Int) + 1)) ∧
      (∀ j : Nat, j < n.toNat → 0 < count + (j : Int) + 1) := by
  have h2 := exceptMapM_ok_inv _ h
  constructor
  · exact forall₂_eq_map _ h2 (fun a b hab => (int_id_ok_inv hab).2)
  · intro j hj
    obtain ⟨b, _, hb⟩ := forall₂_mem h2 j (List.mem_range.mpr hj)
    exact (int_id_ok_inv hb).1

/-! ## Lemmas: `make_af3_input` -/

theorem pyGet_ok_inv {α : Type} {l : List α} {i : Nat} {a : α} (h : pyGet l i = .ok a) :
    l.get? i = some a := by
  unfold pyGet at h
  cases hl : l.get? i with
  | none => rw [hl] at h; cases h
  | some b => rw [hl] at h; cases h; rfl

theorem pyGet_ok_of {α : Type} {l : List α} {i : Nat} {a : α} (h : l.get? i = some a) :
    pyGet l i = .ok a := by
  unfold pyGet
  rw [h]

theorem msaField_ok_inv {msas : List String} {i : Nat} {v : StrOrNull}
    (h : msaField msas i = .ok v) :
    (∃ s, v = .str s) ∧ (msas = [] → v = .str "") ∧
      (∀ m, msas ≠ [] → msas.get? i = some m → v = .str m) := by
  unfold msaField at h
  by_cases he : msas = []
  · rw [if_pos he] at h
    cases h
    exact ⟨⟨"", rfl⟩, fun _ => rfl, fun m hne _ => absurd he hne⟩
  · rw [if_neg he] at h
    obtain ⟨m0, hm0, h2⟩ := exceptBind_ok h
    have hg := pyGet_ok_inv hm0
    by_cases hm : m0 = ""
    · subst hm
      simp at h2
      cases h2
      refine ⟨⟨"", rfl⟩, fun hc => absurd hc he, fun m _ hgm => ?_⟩
      rw [hg] at hgm
      cases hgm
      rfl
    · simp [hm] at h2
      refine ⟨⟨m0, h2.symm⟩, fun hc => absurd hc he, fun m _ hgm => ?_⟩
      rw [hg] at hgm
      cases hgm
      exact h2.symm

theorem msaField_ok_nil (i : Nat) : msaField [] i = .ok (.str "") := rfl

theorem msaField_ok_get {msas : List String} {i : Nat} {m : String}
    (h : msas.get? i = some m) : msaField msas i = .ok (.str m) := by
  have hne : msas ≠ [] := by
    intro hc
    subst hc
    cases h
  unfold msaField
  rw [if_neg hne]
  by_cases hm : m = ""
  · subst hm
    simp [pyGet_ok_of h, Bind.bind, Except.bind]
  · simp [pyGet_ok_of h, hm, Bind.bind, Except.bind]

/-- Total identifier-count of an entity list (the quantity recomputed by the
chain-count loop of `add_extra_molecules` when all entities are proteins). -/
def sumIds : List Entity → Int
  | [] => 0
  | .protein p :: rest => p.id.length + sumIds rest
  | .extra e :: rest => e.id.length + sumIds rest

theorem sumIds_nonneg : ∀ ents : List Entity, 0 ≤ sumIds ents
  | [] => le_refl 0
  | .protein p :: rest => by
    have := sumIds_nonneg rest
    simp only [sumIds]
    positivity
  | .extra e :: rest => by
    have := sumIds_nonneg rest
    simp only [sumIds]
    positivity

theorem countIds_ok : ∀ (ents : List Entity) (acc : Int),
    (∀ e ∈ ents, ∃ p, e = Entity.protein p) → countIds ents acc = .ok (acc + sumIds ents)
  | [], acc, _ => by simp [countIds, sumIds]
  | .protein p :: rest, acc, h => by
    have hr := countIds_ok rest (acc + p.id.length)
      (fun e he => h e (List.mem_cons_of_mem _ he))
    simp only [countIds, sumIds, hr]
    congr 1
    ring
  | .extra e :: rest, acc, h => by
    obtain ⟨p, hp⟩ := h (.extra e) (List.mem_cons_self _ _)
    cases hp

/-- Everything the later claims need about a successful `buildProteins` run:
lengths, protein-only entities, identifier bounds, and alignment fields. -/
theorem buildProteins_inv (cards : List Int) (unp par : List String) :
    ∀ (seqs : List String) (i : Nat) (count : Int) {ents : List Entity} {count' : Int},
    buildProteins cards unp par seqs i count = .ok (ents, count') →
    ents.length = seqs.length ∧
    (∀ e ∈ ents, ∃ p, e = Entity.protein p) ∧
    (∀ k p, ents.get? k = some (Entity.protein p) →
      (∀ s ∈ p.id, ∃ t : Int, 0 < t ∧ t ≤ count + sumIds ents ∧ s = idStr t) ∧
      (∃ c, cards.get? (i + k) = some c ∧ p.id.length = c.toNat) ∧
      (∃ s, p.unpairedMsa = .str s) ∧ (∃ s, p.pairedMsa = .str s) ∧
      (unp = [] → p.unpairedMsa = .str "") ∧
      (∀ m, unp ≠ [] → unp.get? (i + k) = some m → p.unpairedMsa = .str m) ∧
      (par = [] → p.pairedMsa = .str "") ∧
      (∀ m, par ≠ [] → par.get? (i + k) = some m → p.pairedMsa = .str m)) := by
  intro seqs
  induction seqs with
  | nil =>
    intro i count ents count' h
    simp only [buildProteins] at h
    cases h
    refine ⟨rfl, fun e he => absurd he (List.not_mem_nil e), fun k p hk => ?_⟩
    simp at hk
  | cons q rest ih =>
    intro i count ents count' h
    simp only [buildProteins] at h
    obtain ⟨c, hc, h2⟩ := exceptBind_ok h
    obtain ⟨ids, hids, h3⟩ := exceptBind_ok h2
    obtain ⟨u, hu, h4⟩ := exceptBind_ok h3
    obtain ⟨pm, hpm, h5⟩ := exceptBind_ok h4
    obtain ⟨pr, hpr, h6⟩ := exceptBind_ok h5
    obtain ⟨ents1, count1⟩ := pr
    simp only at h6
    cases h6
    obtain ⟨hlen, hprot, hfacts⟩ := ih (i + 1) (count + c) hpr
    obtain ⟨hidsmap, hidspos⟩ := mkChainIds_ok_inv hids
    have hidslen : ids.length = c.toNat := by
      rw [hidsmap]
      simp
    have hcle : c ≤ (c.toNat : Int) := Int.self_le_toNat c
    have hsum1 : (0 : Int) ≤ sumIds ents1 := sumIds_nonneg ents1
    have hsum : sumIds (Entity.protein ⟨ids, q, [], [], u, pm⟩ :: ents1)
        = (ids.length : Int) + sumIds ents1 := rfl
    refine ⟨by simpa using hlen, ?_, ?_⟩
    · intro e he
      rcases List.mem_cons.mp he with h1 | h2
      · exact ⟨_, h1⟩
      · exact hprot e h2
    · intro k p hk
      cases k with
      | zero =>
        simp only [List.get?] at hk
        cases hk
        have humsa := msaField_ok_inv hu
        have hpmsa := msaField_ok_inv hpm
        refine ⟨?_, ⟨c, by simpa using pyGet_ok_inv hc, by simpa using hidslen⟩,
          humsa.1, hpmsa.1,
          fun hun => humsa.2.1 hun,
          fun m hne hg => humsa.2.2 m hne (by simpa using hg),
          fun hpn => hpmsa.2.1 hpn,
          fun m hne hg => hpmsa.2.2 m hne (by simpa using hg)⟩
        intro s hs
        rw [hidsmap] at hs
        obtain ⟨j, hj, hsj⟩ := List.mem_map.mp hs
        have hjlt : j < c.toNat := List.mem_range.mp hj
        refine ⟨count + (j : Int) + 1, hidspos j hjlt, ?_, hsj.symm⟩
        rw [hsum, hidslen]
        have : ((j : Int)) + 1 ≤ (c.toNat : Int) := by exact_mod_cast hjlt
        omega
      | succ k' =>
        simp only [List.get?] at hk
        obtain ⟨hbound, hcard, hrest⟩ := hfacts k' p hk
        have hadd : i + 1 + k' = i + (k' + 1) := by omega
        refine ⟨?_, ?_, ?_⟩
        · intro s hs
          obtain ⟨t, ht0, htle, hst⟩ := hbound s hs
          refine ⟨t, ht0, ?_, hst⟩
          rw [hsum, hidslen]
          omega
        · rw [← hadd]
          exact hcard
        · rw [← hadd]
          exact hrest

/-- Success of `buildProteins` under the documented preconditions, nonnegative
copy counts included (no positivity needed). -/
theorem buildProteins_ok_of (cards : List Int) (unp par : List String) :
    ∀ (seqs : List String) (i : Nat) (count : Int), 0 ≤ count →
    (∀ k, k < seqs.length → ∃ c, cards.get? (i + k) = some c ∧ 0 ≤ c) →
    (unp = [] ∨ (∀ k, k < seqs.length → ∃ m, unp.get? (i + k) = some m)) →
    (par = [] ∨ (∀ k, k < seqs.length → ∃ m, par.get? (i + k) = some m)) →
    ∃ ents count', buildProteins cards unp par seqs i count = .ok (ents, count') := by
  intro seqs
  induction seqs with
  | nil =>
    intro i count _ _ _ _
    exact ⟨[], count, rfl⟩
  | cons q rest ih =>
    intro i count hcount hcards hunp hpar
    obtain ⟨c, hc, hc0⟩ := hcards 0 (by simp)
    rw [Nat.add_zero] at hc
    have hids := mkChainIds_ok_of count c hcount
    have hu : ∃ u, msaField unp i = .ok u := by
      rcases hunp with h | h
      · exact ⟨.str "", by rw [h]; exact msaField_ok_nil i⟩
      · obtain ⟨m, hm⟩ := h 0 (by simp)
        rw [Nat.add_zero] at hm
        exact ⟨.str m, msaField_ok_get hm⟩
    have hp : ∃ p, msaField par i = .ok p := by
      rcases hpar with h | h
      · exact ⟨.str "", by rw [h]; exact msaField_ok_nil i⟩
      · obtain ⟨m, hm⟩ := h 0 (by simp)
        rw [Nat.add_zero] at hm
        exact ⟨.str m, msaField_ok_get hm⟩
    obtain ⟨u, hu⟩ := hu
    obtain ⟨pm, hp⟩ := hp
    obtain ⟨ents1, count1, hrec⟩ := ih (i + 1) (count + c) (by omega)
      (fun k hk => by
        have hk' : k + 1 < (q :: rest).length := by simpa using Nat.succ_lt_succ hk
        obtain ⟨c', hc', h0'⟩ := hcards (k + 1) hk'
        rw [show i + (k + 1) = i + 1 + k by omega] at hc'
        exact ⟨c', hc', h0'⟩)
      (hunp.imp id (fun h k hk => by
        rw [show i + 1 + k = i + (k + 1) by omega]
        exact h (k + 1) (by simpa using Nat.succ_lt_succ hk)))
      (hpar.imp id (fun h k hk => by
        rw [show i + 1 + k = i + (k + 1) by omega]
        exact h (k + 1) (by simpa using Nat.succ_lt_succ hk)))
    refine ⟨Entity.protein ⟨(List.range c.toNat).map (fun (j : Nat) => idStr (count + (j : Int) + 1)),
      q, [], [], u, pm⟩ :: ents1, count1, ?_⟩
    simp [buildProteins, pyGet_ok_of hc, hids, hu, hp, hrec, Bind.bind, Except.bind]

theorem make_af3_input_inv {name : String} {seqs : List String} {cards : List Int}
    {unp par : List String} {content : Af3Content}
    (h : make_af3_input name seqs cards unp par = .ok content) :
    ∃ count', buildProteins cards unp par seqs 0 0 = .ok (content.sequences, count') ∧
      content = { dialect := "alphafold3", version := 2, name := name,
                  sequences := content.sequences, modelSeeds := [1],
                  bondedAtomPairs := none, userCCD := none } := by
  unfold make_af3_input at h
  obtain ⟨pr, hpr, h2⟩ := exceptBind_ok h
  obtain ⟨ents, count'⟩ := pr
  simp only at h2
  cases h2
  exact ⟨count', hpr, rfl⟩

theorem make_af3_input_ok_of (name : String) {seqs : List String} {cards : List Int}
    {unp par : List String} {ents : List Entity} {count' : Int}
    (h : buildProteins cards unp par seqs 0 0 = .ok (ents, count')) :
    make_af3_input name seqs cards unp par =
      .ok { dialect := "alphafold3", version := 2, name := name, sequences := ents,
            modelSeeds := [1], bondedAtomPairs := none, userCCD := none } := by
  unfold make_af3_input
  simp [h, Bind.bind, Except.bind]

/-! ## Lemmas: `add_extra_molecules` -/

/-- Invariant of the grouping dictionary: every inner key sits under its own
upper-class. -/
def GroupsInv (l : List (String × List (MolKey × Int))) : Prop :=
  ∀ e ∈ l, ∀ kc ∈ e.2, kc.1.1.upperclass = e.1

theorem updInner_inv {inner : List (MolKey × Int)} {uc : String} {k : MolKey} {c : Int}
    (hinv : ∀ kc ∈ inner, kc.1.1.upperclass = uc) (hk : k.1.upperclass = uc) :
    ∀ kc ∈ updInner inner k c, kc.1.1.upperclass = uc := by
  induction inner with
  | nil =>
    intro kc hkc
    simp only [updInner] at hkc
    rcases List.mem_singleton.mp hkc with h
    subst h
    exact hk
  | cons a rest ih =>
    intro kc hkc
    obtain ⟨k', c'⟩ := a
    simp only [updInner] at hkc
    by_cases hke : k' = k
    · rw [if_pos hke] at hkc
      rcases List.mem_cons.mp hkc with h | h
      · subst h
        exact hinv (k', c') (List.mem_cons_self _ _)
      · exact hinv kc (List.mem_cons_of_mem _ h)
    · rw [if_neg hke] at hkc
      rcases List.mem_cons.mp hkc with h | h
      · subst h
        exact hinv (k', c') (List.mem_cons_self _ _)
      · exact ih (fun kc' hkc' => hinv kc' (List.mem_cons_of_mem _ hkc')) kc h

theorem updOuter_inv {l : List (String × List (MolKey × Int))} {uc : String} {k : MolKey}
    {c : Int} (hinv : GroupsInv l) (hk : k.1.upperclass = uc) :
    GroupsInv (updOuter l uc k c) := by
  induction l with
  | nil =>
    intro e he kc hkc
    simp only [updOuter] at he
    rcases List.mem_singleton.mp he with h
    subst h
    rcases List.mem_singleton.mp hkc with h2
    subst h2
    exact hk
  | cons a rest ih =>
    intro e he kc hkc
    obtain ⟨uc', inner⟩ := a
    simp only [updOuter] at he
    by_cases hue : uc' = uc
    · rw [if_pos hue] at he
      rcases List.mem_cons.mp he with h | h
      · subst h
        subst hue
        exact updInner_inv (fun kc' hkc' => hinv (uc', inner) (List.mem_cons_self _ _) kc' hkc')
          hk kc hkc
      · exact hinv e (List.mem_cons_of_mem _ h) kc hkc
    · rw [if_neg hue] at he
      rcases List.mem_cons.mp he with h | h
      · subst h
        exact hinv (uc', inner) (List.mem_cons_self _ _) kc hkc
      · exact ih (fun e' he' kc' hkc' => hinv e' (List.mem_cons_of_mem _ he') kc' hkc') e h kc hkc

theorem foldl_updOuter_inv :
    ∀ (molecules : List (MolType × String × Int)) (acc : List (String × List (MolKey × Int))),
    GroupsInv acc →
    GroupsInv (molecules.foldl (fun acc m => updOuter acc m.1.upperclass (m.1, m.2.1) m.2.2) acc)
  | [], _, h => h
  | m :: rest, acc, h => foldl_updOuter_inv rest _ (updOuter_inv h rfl)

theorem groupMolecules_inv (molecules : List (MolType × String × Int)) :
    GroupsInv (groupMolecules molecules) :=
  foldl_updOuter_inv molecules [] (fun e he => (List.not_mem_nil e he).elim)

theorem buildExtrasInner_inv (uc : String) :
    ∀ (inner : List (MolKey × Int)) (count : Int) {ents : List Entity} {count' : Int},
    buildExtrasInner uc inner count = .ok (ents, count') →
    (∀ kc ∈ inner, kc.1.1.upperclass = uc) →
    ∀ e ∈ ents, ∃ mt sequence ids, (mt : MolType).upperclass = uc ∧
      e = Entity.extra (mkExtraEntity uc mt sequence ids) := by
  intro inner
  induction inner with
  | nil =>
    intro count ents count' h _
    simp only [buildExtrasInner] at h
    cases h
    intro e he
    cases he
  | cons a rest ih =>
    intro count ents count' h hinv
    obtain ⟨⟨mt, sequence⟩, copies⟩ := a
    simp only [buildExtrasInner] at h
    obtain ⟨ids, hids, h2⟩ := exceptBind_ok h
    obtain ⟨pr, hpr, h3⟩ := exceptBind_ok h2
    obtain ⟨ents1, count1⟩ := pr
    simp only at h3
    cases h3
    intro e he
    rcases List.mem_cons.mp he with h1 | h1
    · subst h1
      exact ⟨mt, sequence, ids, hinv ((mt, sequence), copies) (List.mem_cons_self _ _), rfl⟩
    · exact ih (count + copies) hpr (fun kc hkc => hinv kc (List.mem_cons_of_mem _ hkc)) e h1

theorem buildExtras_inv :
    ∀ (groups : List (String × List (MolKey × Int))) (count : Int) {ents : List Entity}
      {count' : Int},
    buildExtras groups count = .ok (ents, count') →
    GroupsInv groups →
    ∀ e ∈ ents, ∃ uc mt sequence ids, (mt : MolType).upperclass = uc ∧
      e = Entity.extra (mkExtraEntity uc mt sequence ids) := by
  intro groups
  induction groups with
  | nil =>
    intro count ents count' h _
    simp only [buildExtras] at h
    cases h
    intro e he
    cases he
  | cons g rest ih =>
    intro count ents count' h hinv
    obtain ⟨uc, inner⟩ := g
    simp only [buildExtras] at h
    obtain ⟨pr1, hpr1, h2⟩ := exceptBind_ok h
    obtain ⟨ents1, count1⟩ := pr1
    obtain ⟨pr2, hpr2, h3⟩ := exceptBind_ok h2
    obtain ⟨ents2, count2⟩ := pr2
    simp only at h3
    cases h3
    intro e he
    rcases List.mem_append.mp he with h1 | h1
    · obtain ⟨mt, sequence, ids, hmt, hee⟩ := buildExtrasInner_inv uc inner count hpr1
        (fun kc hkc => hinv (uc, inner) (List.mem_cons_self _ _) kc hkc) e h1
      exact ⟨uc, mt, sequence, ids, hmt, hee⟩
    · exact ih count1 hpr2 (fun e' he' kc hkc => hinv e' (List.mem_cons_of_mem _ he') kc hkc) e h1

theorem add_extra_inv {content : Af3Content} {mols : List (MolType × String × Int)}
    {content' : Af3Content} (h : add_extra_molecules content mols = .ok content') :
    (content' = content ∧ groupMolecules mols = []) ∨
    (∃ (N count' : Int) (extras : List Entity),
      countIds content.sequences 0 = .ok N ∧
      buildExtras (groupMolecules mols) N = .ok (extras, count') ∧
      content' = { content with sequences := content.sequences ++ extras } ∧
      groupMolecules mols ≠ []) := by
  unfold add_extra_molecules at h
  obtain ⟨N, hN, h2⟩ := exceptBind_ok h
  by_cases hum : groupMolecules mols = []
  · left
    rw [if_pos hum] at h2
    cases h2
    exact ⟨rfl, hum⟩
  · right
    rw [if_neg hum] at h2
    obtain ⟨pr, hpr, h3⟩ := exceptBind_ok h2
    obtain ⟨extras, count'⟩ := pr
    simp only at h3
    cases h3
    exact ⟨N, count', extras, hN, hpr, rfl, hum⟩

theorem af3utils_inv {name : String} {seqs : List String} {cards : List Int}
    {unp par : List String} {extras : Option (List (MolType × String × Int))}
    {content : Af3Content}
    (h : af3utils_content name seqs cards unp par extras = .ok content) :
    ∃ base, make_af3_input name seqs cards unp par = .ok base ∧
      (content = base ∨
        ∃ mols, extras = some mols ∧ add_extra_molecules base mols = .ok content) := by
  unfold af3utils_content at h
  obtain ⟨base, hbase, h2⟩ := exceptBind_ok h
  refine ⟨base, hbase, ?_⟩
  cases extras with
  | none =>
    simp only at h2
    cases h2
    exact Or.inl rfl
  | some mols =>
    simp only at h2
    by_cases hm : mols = []
    · subst hm
      simp at h2
      cases h2
      exact Or.inl rfl
    · rw [if_pos ?_] at h2
      · exact Or.inr ⟨mols, rfl, h2⟩
      · simpa using hm

/-- The grouping dictionary for two descriptors of equal kind and sequence:
one upper-class, one key, summed copies. -/
theorem groupMolecules_pair (mt : MolType) (s : String) (c1 c2 : Int) :
    groupMolecules [(mt, s, c1), (mt, s, c2)] = [(mt.upperclass, [((mt, s), c1 + c2)])] := by
  simp [groupMolecules, List.foldl, updOuter, updInner]

/-! ## Claims C3, C8 (allocator) -/

/-- C3: for every positive ordinal, `_int_id_to_str_id` returns exactly the
string of the spec's bijective base-26 algorithm with the digits concatenated
in emission order (least-significant first, not reversed); in particular
1 → "A", 26 → "Z", 27 → "AA" and 52 → "ZA". -/
theorem c3_allocator_refines_spec :
    (∀ n : Int, 0 < n → int_id_to_str_id n = .ok (specAllocate n)) ∧
    int_id_to_str_id 1 = .ok "A" ∧ int_id_to_str_id 26 = .ok "Z" ∧
    int_id_to_str_id 27 = .ok "AA" ∧ int_id_to_str_id 52 = .ok "ZA" := by
  refine ⟨?_, by decide, by decide, by decide, by decide⟩
  intro n hn
  rw [int_id_ok_of hn]
  unfold specAllocate idStr
  rw [specEmit_eq_digits (n - 1).toNat (n - 1) (by omega) rfl]

theorem c3_witness : 0 < (27 : Int) ∧ int_id_to_str_id 27 = .ok (specAllocate 27) :=
  ⟨by decide, c3_allocator_refines_spec.1 27 (by decide)⟩

/-- C8: distinct positive ordinals get distinct letter codes from
`_int_id_to_str_id`, so identifiers drawn from one running counter are
globally unique. -/
theorem c8_allocator_injective : ∀ n1 n2 : Int, 0 < n1 → 0 < n2 → n1 ≠ n2 →
    int_id_to_str_id n1 ≠ int_id_to_str_id n2 := by
  intro n1 n2 h1 h2 hne hc
  rw [int_id_ok_of h1, int_id_ok_of h2] at hc
  have heq : idStr n1 = idStr n2 := by
    injection hc
  exact hne (idStr_inj h1 h2 heq)

theorem c8_witness : 0 < (1 : Int) ∧ 0 < (27 : Int) ∧ (1 : Int) ≠ 27 ∧
    int_id_to_str_id 1 ≠ int_id_to_str_id 27 :=
  ⟨by decide, by decide, by decide, c8_allocator_injective 1 27 (by decide) (by decide) (by decide)⟩

/-! ## Claim C2 (copy-count validation) -/

/-- C2 counterexample: a zero copy count does not make the assembler fail —
the constructor returns a record (with an empty identifier list), so there is
no `InvalidCopyCount` failure. -/
theorem c2_counterexample :
    (0 : Int) ∈ ([0] : List Int) ∧
    af3utils_content "test" ["MKV"] [0] [""] [""] none =
      .ok { dialect := "alphafold3", version := 2, name := "test",
            sequences := [.protein ⟨[], "MKV", [], [], .str "", .str ""⟩],
            modelSeeds := [1], bondedAtomPairs := none, userCCD := none } :=
  ⟨by decide, by decide⟩

/-- C2 amended: zero (or any nonnegative) copy counts are accepted, not
rejected: with parallel inputs and all copy counts nonnegative the assembler
returns a record, and an entity with copy count `c` carries `c.toNat` chain
identifiers — an empty list for a zero count. -/
theorem c2_nonneg_counts_accepted :
    ∀ (name : String) (seqs : List String) (cards : List Int) (unp par : List String),
    cards.length = seqs.length →
    (∀ c ∈ cards, 0 ≤ c) →
    (unp = [] ∨ unp.length = seqs.length) →
    (par = [] ∨ par.length = seqs.length) →
    ∃ content, make_af3_input name seqs cards unp par = .ok content ∧
      content.sequences.length = seqs.length ∧
      (∀ k c, cards.get? k = some c →
        ∃ p, content.sequences.get? k = some (Entity.protein p) ∧ p.id.length = c.toNat) := by
  intro name seqs cards unp par hlen hpos hunp hpar
  have hcards : ∀ k, k < seqs.length → ∃ c, cards.get? (0 + k) = some c ∧ 0 ≤ c := by
    intro k hk
    have hk' : k < cards.length := by omega
    refine ⟨cards.get ⟨k, hk'⟩, ?_, hpos _ (cards.get_mem _ _)⟩
    rw [Nat.zero_add]
    exact List.get?_eq_get hk'
  have hunp' : unp = [] ∨ (∀ k, k < seqs.length → ∃ m, unp.get? (0 + k) = some m) := by
    rcases hunp with h | h
    · exact Or.inl h
    · refine Or.inr (fun k hk => ?_)
      have hk' : k < unp.length := by omega
      exact ⟨unp.get ⟨k, hk'⟩, by rw [Nat.zero_add]; exact List.get?_eq_get hk'⟩
  have hpar' : par = [] ∨ (∀ k, k < seqs.length → ∃ m, par.get? (0 + k) = some m) := by
    rcases hpar with h | h
    · exact Or.inl h
    · refine Or.inr (fun k hk => ?_)
      have hk' : k < par.length := by omega
      exact ⟨par.get ⟨k, hk'⟩, by rw [Nat.zero_add]; exact List.get?_eq_get hk'⟩
  obtain ⟨ents, count', hbp⟩ :=
    buildProteins_ok_of cards unp par seqs 0 0 (le_refl 0) hcards hunp' hpar'
  obtain ⟨hlen', hprot, hfacts⟩ := buildProteins_inv cards unp par seqs 0 0 hbp
  refine ⟨_, make_af3_input_ok_of name hbp, hlen', ?_⟩
  intro k c hc
  have hkc : k < cards.length := by
    by_contra hge
    have hnone : cards.get? k = none := List.get?_eq_none.mpr (by omega)
    rw [hc] at hnone
    cases hnone
  have hk : k < ents.length := by omega
  have he : ents.get? k = some (ents.get ⟨k, hk⟩) := List.get?_eq_get hk
  obtain ⟨p, hp⟩ := hprot (ents.get ⟨k, hk⟩) (List.get?_mem he)
  rw [hp] at he
  obtain ⟨_, ⟨c', hc', hplen⟩, _⟩ := hfacts k p he
  rw [Nat.zero_add] at hc'
  rw [hc] at hc'
  cases hc'
  exact ⟨p, he, hplen⟩

theorem c2_witness :
    ∃ content, make_af3_input "t" ["MKV", "QQ"] [0, 1] [] [] = .ok content ∧
      content.sequences.length = 2 ∧
      (∀ k c, ([0, 1] : List Int).get? k = some c →
        ∃ p, content.sequences.get? k = some (Entity.protein p) ∧ p.id.length = c.toNat) := by
  obtain ⟨content, h1, h2, h3⟩ := c2_nonneg_counts_accepted "t" ["MKV", "QQ"] [0, 1] [] []
    (by decide) (by decide) (Or.inl rfl) (Or.inl rfl)
  exact ⟨content, h1, by simpa using h2, h3⟩

/-! ## Claim C5 (end-to-end scenario) -/

/-- C5: the documented end-to-end scenario, for an arbitrary job name:
`unique-sequences=["MKV"], copy-counts=[2], unpaired=[""], paired=[""]` with
extras `[(chemical-component, "LIG", 2)]` yields a protein entity with
ids `["A","B"]` and empty-string alignment fields, a ligand entity with ids
`["C","D"]` and `ccdCodes=["LIG"]`, and the fixed record fields. -/
theorem c5_end_to_end (name : String) :
    af3utils_content name ["MKV"] [2] [""] [""] (some [(MolType.CCD, "LIG", 2)]) =
      .ok { dialect := "alphafold3", version := 2, name := name,
            sequences := [.protein ⟨["A", "B"], "MKV", [], [], .str "", .str ""⟩,
                          .extra ⟨"ligand", ["C", "D"], "ccdCodes", .strList ["LIG"], none⟩],
            modelSeeds := [1], bondedAtomPairs := none, userCCD := none } := by
  have hbp : buildProteins [2] [""] [""] ["MKV"] 0 0 =
      .ok ([Entity.protein ⟨["A", "B"], "MKV", [], [], .str "", .str ""⟩], 2) := by decide
  have h1 := make_af3_input_ok_of name hbp
  have hc : countIds [Entity.protein ⟨["A", "B"], "MKV", [], [], .str "", .str ""⟩] 0 =
      .ok 2 := by decide
  have hg : groupMolecules [(MolType.CCD, "LIG", 2)] =
      [("ligand", [((MolType.CCD, "LIG"), 2)])] := by decide
  have hbe : buildExtras [("ligand", [((MolType.CCD, "LIG"), 2)])] 2 =
      .ok ([Entity.extra ⟨"ligand", ["C", "D"], "ccdCodes", .strList ["LIG"], none⟩], 4) := by
    decide
  unfold af3utils_content
  rw [h1]
  simp [add_extra_molecules, hc, hg, hbe, Bind.bind, Except.bind]

/-! ## Claim C4 (merge of duplicate extras, fresh identifiers) -/

/-- A `buildExtras` run over a single upper-class with a single merged entity. -/
theorem buildExtras_single {uc : String} {mt : MolType} {s : String} {c N count' : Int}
    {ents : List Entity}
    (h : buildExtras [(uc, [((mt, s), c)])] N = .ok (ents, count')) :
    ∃ ids, mkChainIds N c = .ok ids ∧ ents = [Entity.extra (mkExtraEntity uc mt s ids)] := by
  simp only [buildExtras, buildExtrasInner] at h
  obtain ⟨pr1, hpr1, h2⟩ := exceptBind_ok h
  obtain ⟨ents1, c1⟩ := pr1
  simp only [Bind.bind, Except.bind] at h2
  cases h2
  obtain ⟨ids, hids, h3⟩ := exceptBind_ok hpr1
  simp only [Bind.bind, Except.bind] at h3
  cases h3
  exact ⟨ids, hids, by simp⟩

/-- C4: adding two extra descriptors of identical kind and sequence with copy
counts 2 and 3 to an assembled record appends exactly one merged entity block
carrying five pairwise-distinct chain identifiers, none of which collides with
any protein entity's identifier. -/
theorem c4_merge_extras :
    ∀ (name : String) (seqs : List String) (cards : List Int) (unp par : List String)
      (content : Af3Content) (mt : MolType) (s : String) (content' : Af3Content),
    make_af3_input name seqs cards unp par = .ok content →
    add_extra_molecules content [(mt, s, 2), (mt, s, 3)] = .ok content' →
    ∃ ids, content'.sequences =
        content.sequences ++ [Entity.extra (mkExtraEntity mt.upperclass mt s ids)] ∧
      ids.length = 5 ∧ ids.Nodup ∧
      (∀ e ∈ content.sequences, ∀ p, e = Entity.protein p → ∀ pid ∈ p.id, pid ∉ ids) := by
  intro name seqs cards unp par content mt s content' hmk hadd
  obtain ⟨count0, hbp, _⟩ := make_af3_input_inv hmk
  obtain ⟨hlen, hprot, hfacts⟩ := buildProteins_inv cards unp par seqs 0 0 hbp
  rcases add_extra_inv hadd with ⟨_, hum⟩ | ⟨N, count', extras, hN, hbe, hc', hum⟩
  · rw [groupMolecules_pair] at hum
    cases hum
  · rw [groupMolecules_pair] at hbe
    obtain ⟨ids, hids, hents⟩ := buildExtras_single hbe
    subst hents
    obtain ⟨hidsmap, hidspos⟩ := mkChainIds_ok_inv hids
    have h5 : ((2 : Int) + 3).toNat = 5 := by decide
    have hlen5 : ids.length = 5 := by
      rw [hidsmap, List.length_map, List.length_range, h5]
    -- N is the total protein identifier count
    have hcount := countIds_ok content.sequences 0 hprot
    rw [hN] at hcount
    have hNval : N = 0 + sumIds content.sequences := by
      injection hcount
    refine ⟨ids, by rw [hc'], hlen5, ?_, ?_⟩
    · rw [hidsmap]
      refine List.Nodup.map_on ?_ (List.nodup_range _)
      intro x hx y hy hxy
      have hxp := hidspos x (List.mem_range.mp hx)
      have hyp := hidspos y (List.mem_range.mp hy)
      have := idStr_inj hxp hyp hxy
      omega
    · intro e he p hp pid hpid hmem
      subst hp
      obtain ⟨k, hk⟩ := List.get?_of_mem he
      obtain ⟨hbound, _⟩ := hfacts k p hk
      obtain ⟨t, ht0, htle, hpidt⟩ := hbound pid hpid
      rw [hidsmap] at hmem
      obtain ⟨j, hj, hjid⟩ := List.mem_map.mp hmem
      have hjpos := hidspos j (List.mem_range.mp hj)
      have : t = N + (j : Int) + 1 := by
        apply idStr_inj ht0 hjpos
        rw [← hpidt, ← hjid]
      have hj0 : (0 : Int) ≤ (j : Int) := by exact_mod_cast Nat.zero_le j
      omega

theorem c4_witness :
    ∃ content content',
      make_af3_input "t" ["MKV"] [1] [""] [""] = .ok content ∧
      add_extra_molecules content [(MolType.CCD, "LIG", 2), (MolType.CCD, "LIG", 3)] =
        .ok content' ∧
      ∃ ids, content'.sequences =
          content.sequences ++ [Entity.extra (mkExtraEntity MolType.CCD.upperclass MolType.CCD "LIG" ids)] ∧
        ids.length = 5 ∧ ids.Nodup ∧
        (∀ e ∈ content.sequences, ∀ p, e = Entity.protein p → ∀ pid ∈ p.id, pid ∉ ids) := by
  have h1 : make_af3_input "t" ["MKV"] [1] [""] [""] =
      .ok { dialect := "alphafold3", version := 2, name := "t",
            sequences := [.protein ⟨["A"], "MKV", [], [], .str "", .str ""⟩],
            modelSeeds := [1], bondedAtomPairs := none, userCCD := none } := by decide
  have h2 : add_extra_molecules
      { dialect := "alphafold3", version := 2, name := "t",
        sequences := [.protein ⟨["A"], "MKV", [], [], .str "", .str ""⟩],
        modelSeeds := [1], bondedAtomPairs := none, userCCD := none }
      [(MolType.CCD, "LIG", 2), (MolType.CCD, "LIG", 3)] =
      .ok { dialect := "alphafold3", version := 2, name := "t",
            sequences := [.protein ⟨["A"], "MKV", [], [], .str "", .str ""⟩,
                          .extra ⟨"ligand", ["B", "C", "D", "E", "F"], "ccdCodes",
                                  .strList ["LIG"], none⟩],
            modelSeeds := [1], bondedAtomPairs := none, userCCD := none } := by decide
  exact ⟨_, _, h1, h2, c4_merge_extras "t" ["MKV"] [1] [""] [""] _ MolType.CCD "LIG" _ h1 h2⟩

/-! ## Claim C6 (alignment sentinels) -/

theorem upperclass_rna_iff (mt : MolType) (h : mt.upperclass = "rna") : mt = MolType.RNA := by
  cases mt with
  | RNA => rfl
  | DNA => simp [MolType.upperclass] at h
  | CCD => simp [MolType.upperclass] at h
  | SMILES => simp [MolType.upperclass] at h

theorem mkExtraEntity_upperclass (uc : String) (mt : MolType) (s : String) (ids : List String) :
    (mkExtraEntity uc mt s ids).upperclass = uc := rfl

/-- C6: in every assembled record, each protein entity's `unpairedMsa` and
`pairedMsa` are string sentinels (the caller's string when one was supplied
for that index, else the empty string) and never the null sentinel, while
every RNA extra entity carries exactly the null `unpairedMsa` sentinel, which
is distinct from the empty string. -/
theorem c6_msa_policy :
    ∀ (name : String) (seqs : List String) (cards : List Int) (unp par : List String)
      (extras : Option (List (MolType × String × Int))) (content : Af3Content),
    af3utils_content name seqs cards unp par extras = .ok content →
    (∀ k p, content.sequences.get? k = some (Entity.protein p) →
      (∃ s, p.unpairedMsa = .str s) ∧ (∃ s, p.pairedMsa = .str s) ∧
      (unp = [] → p.unpairedMsa = .str "") ∧
      (∀ m, unp ≠ [] → unp.get? k = some m → p.unpairedMsa = .str m) ∧
      (par = [] → p.pairedMsa = .str "") ∧
      (∀ m, par ≠ [] → par.get? k = some m → p.pairedMsa = .str m)) ∧
    (∀ e ∈ content.sequences, ∀ ee, e = Entity.extra ee → ee.upperclass = "rna" →
      ee.unpairedMsa = some StrOrNull.nullv) ∧
    StrOrNull.nullv ≠ StrOrNull.str "" := by
  intro name seqs cards unp par extras content h
  obtain ⟨base, hbase, hrest⟩ := af3utils_inv h
  obtain ⟨count0, hbp, _⟩ := make_af3_input_inv hbase
  obtain ⟨hlen, hprot, hfacts⟩ := buildProteins_inv cards unp par seqs 0 0 hbp
  have hbaseFacts : ∀ k p, base.sequences.get? k = some (Entity.protein p) →
      (∃ s, p.unpairedMsa = .str s) ∧ (∃ s, p.pairedMsa = .str s) ∧
      (unp = [] → p.unpairedMsa = .str "") ∧
      (∀ m, unp ≠ [] → unp.get? k = some m → p.unpairedMsa = .str m) ∧
      (par = [] → p.pairedMsa = .str "") ∧
      (∀ m, par ≠ [] → par.get? k = some m → p.pairedMsa = .str m) := by
    intro k p hk
    obtain ⟨_, h2, h3, h4, h5, h6, h7, h8⟩ := hfacts k p hk
    rw [Nat.zero_add] at h6 h8
    exact ⟨h3, h4, h5, h6, h7, h8⟩
  rcases hrest with hcb | ⟨mols, _, hadd⟩
  · subst hcb
    refine ⟨hbaseFacts, ?_, by decide⟩
    intro e he ee hee _
    obtain ⟨p, hp⟩ := hprot e he
    rw [hp] at hee
    cases hee
  · rcases add_extra_inv hadd with ⟨hcb, _⟩ | ⟨N, count', exl, hN, hbe, hcb, _⟩
    · subst hcb
      refine ⟨hbaseFacts, ?_, by decide⟩
      intro e he ee hee _
      obtain ⟨p, hp⟩ := hprot e he
      rw [hp] at hee
      cases hee
    · have hseqs : content.sequences = base.sequences ++ exl := by rw [hcb]
      have hextra := buildExtras_inv (groupMolecules mols) N hbe (groupMolecules_inv mols)
      refine ⟨?_, ?_, by decide⟩
      · intro k p hk
        rw [hseqs] at hk
        by_cases hklt : k < base.sequences.length
        · rw [List.get?_append hklt] at hk
          exact hbaseFacts k p hk
        · rw [List.get?_append_right (by omega)] at hk
          obtain ⟨uc, mt, s, ids, _, hee⟩ := hextra _ (List.get?_mem hk)
          cases hee
      · intro e he ee hee huc
        rw [hseqs] at he
        rcases List.mem_append.mp he with h1 | h1
        · obtain ⟨p, hp⟩ := hprot e h1
          rw [hp] at hee
          cases hee
        · obtain ⟨uc, mt, s, ids, hmt, hef⟩ := hextra e h1
          rw [hef] at hee
          cases hee
          have hucr : uc = "rna" := huc
          have hrna : mt = MolType.RNA := upperclass_rna_iff mt (hmt.trans hucr)
          subst hrna
          simp [mkExtraEntity]

theorem c6_witness :
    ∃ content,
      af3utils_content "t" ["MKV"] [1] [""] [""] (some [(MolType.RNA, "ACGU", 1)]) =
        .ok content ∧
      (∀ e ∈ content.sequences, ∀ ee, e = Entity.extra ee → ee.upperclass = "rna" →
        ee.unpairedMsa = some StrOrNull.nullv) ∧
      (∀ k p, content.sequences.get? k = some (Entity.protein p) →
        ∃ s, p.unpairedMsa = .str s) := by
  have h : af3utils_content "t" ["MKV"] [1] [""] [""] (some [(MolType.RNA, "ACGU", 1)]) =
      .ok { dialect := "alphafold3", version := 2, name := "t",
            sequences := [.protein ⟨["A"], "MKV", [], [], .str "", .str ""⟩,
                          .extra ⟨"rna", ["B"], "sequence", .str "ACGU", some .nullv⟩],
            modelSeeds := [1], bondedAtomPairs := none, userCCD := none } := by decide
  refine ⟨_, h, (c6_msa_policy "t" ["MKV"] [1] [""] [""] _ _ h).2.1, fun k p hk => ?_⟩
  exact ((c6_msa_policy "t" ["MKV"] [1] [""] [""] _ _ h).1 k p hk).1

/-! ## Claim C7 (malformed keys abort before output) -/

theorem buildKeyLists_error :
    ∀ (dic : CifDict) (dv : Option CifVal) (kls : List (String × List String)),
    (∃ e ∈ dic, e.1 ≠ "data_" ∧ (splitDots e.1).length ≠ 2) →
    ∃ k, k ≠ "data_" ∧ (splitDots k).length ≠ 2 ∧
      buildKeyLists dic dv kls = .error (.invalidKey k) := by
  intro dic
  induction dic with
  | nil =>
    intro dv kls h
    obtain ⟨e, he, _⟩ := h
    cases he
  | cons a rest ih =>
    intro dv kls h
    obtain ⟨key, v⟩ := a
    by_cases hd : key = "data_"
    · obtain ⟨e, he, hne, hlen⟩ := h
      rcases List.mem_cons.mp he with h1 | h1
      · rw [h1] at hne
        exact absurd hd hne
      · obtain ⟨k, hk1, hk2, hk3⟩ := ih (some v) kls ⟨e, h1, hne, hlen⟩
        refine ⟨k, hk1, hk2, ?_⟩
        simp only [buildKeyLists, if_pos hd]
        exact hk3
    · cases hsplit : splitDots key with
      | nil =>
        refine ⟨key, hd, by rw [hsplit]; decide, ?_⟩
        simp only [buildKeyLists, if_neg hd, hsplit]
      | cons c rest2 =>
        cases rest2 with
        | nil =>
          refine ⟨key, hd, by rw [hsplit]; simp, ?_⟩
          simp only [buildKeyLists, if_neg hd, hsplit]
        | cons f rest3 =>
          cases rest3 with
          | nil =>
            have hbad : ∃ e ∈ rest, e.1 ≠ "data_" ∧ (splitDots e.1).length ≠ 2 := by
              obtain ⟨e, he, hne, hlen⟩ := h
              rcases List.mem_cons.mp he with h1 | h1
              · rw [h1] at hlen
                simp only at hlen
                rw [hsplit] at hlen
                simp at hlen
              · exact ⟨e, h1, hne, hlen⟩
            obtain ⟨k, hk1, hk2, hk3⟩ := ih dv (addField kls c f) hbad
            refine ⟨k, hk1, hk2, ?_⟩
            simp only [buildKeyLists, if_neg hd, hsplit]
            exact hk3
          | cons g rest4 =>
            refine ⟨key, hd, by rw [hsplit]; simp, ?_⟩
            simp only [buildKeyLists, if_neg hd, hsplit]

/-- C7: a table key (other than the reserved `data_` key) that does not split
into exactly two parts on the category/field separator makes `_save_dict` fail
with the malformed-key error, with no chunk written — in particular no
category block is emitted. -/
theorem c7_malformed_key :
    ∀ (dic : CifDict) (st : BioStructure),
    (∃ e ∈ dic, e.1 ≠ "data_" ∧ (splitDots e.1).length ≠ 2) →
    ∃ k, k ≠ "data_" ∧ (splitDots k).length ≠ 2 ∧
      save_dict dic st = .error (.invalidKey k, []) := by
  intro dic st h
  obtain ⟨k, h1, h2, h3⟩ := buildKeyLists_error dic none [] h
  refine ⟨k, h1, h2, ?_⟩
  unfold save_dict
  rw [h3]

theorem c7_witness :
    ∃ k, k ≠ "data_" ∧ (splitDots k).length ≠ 2 ∧
      save_dict [("bad_key_no_dot", CifVal.str "v")] [] = .error (.invalidKey k, []) :=
  c7_malformed_key [("bad_key_no_dot", CifVal.str "v")] []
    ⟨("bad_key_no_dot", CifVal.str "v"), by decide⟩

/-! ## Claim C10 (missing `data_` key) -/

/-- C10 counterexample: a table without a `data_` key need not fail with the
unbound-variable error — a malformed key fails with the malformed-key error
first. -/
theorem c10_counterexample :
    save_dict [("bad_key_no_dot", CifVal.str "v")] [] =
      .error (SaveError.invalidKey "bad_key_no_dot", []) ∧
    SaveError.invalidKey "bad_key_no_dot" ≠ SaveError.nameErrorDataVal := by decide

theorem buildKeyLists_no_data :
    ∀ (dic : CifDict) (kls : List (String × List String)),
    (∀ e ∈ dic, e.1 ≠ "data_") →
    (∀ e ∈ dic, (splitDots e.1).length = 2) →
    ∃ kls', buildKeyLists dic none kls = .ok (none, kls') := by
  intro dic
  induction dic with
  | nil =>
    intro kls _ _
    exact ⟨kls, rfl⟩
  | cons a rest ih =>
    intro kls h1 h2
    obtain ⟨key, v⟩ := a
    have hd : key ≠ "data_" := h1 (key, v) (List.mem_cons_self _ _)
    have hlen : (splitDots key).length = 2 := h2 (key, v) (List.mem_cons_self _ _)
    cases hsplit : splitDots key with
    | nil => rw [hsplit] at hlen; cases hlen
    | cons c rest2 =>
      cases rest2 with
      | nil => rw [hsplit] at hlen; simp at hlen
      | cons f rest3 =>
        cases rest3 with
        | nil =>
          obtain ⟨kls', hkls⟩ := ih (addField kls c f)
            (fun e he => h1 e (List.mem_cons_of_mem _ he))
            (fun e he => h2 e (List.mem_cons_of_mem _ he))
          refine ⟨kls', ?_⟩
          simp only [buildKeyLists, if_neg hd, hsplit]
          exact hkls
        | cons g rest4 => rw [hsplit] at hlen; simp at hlen

/-- C10 amended: when the table has no `data_` key and every key is otherwise
well-formed, `_save_dict` fails with the unbound-variable error on
`data_val` — an error outside the documented taxonomy — before any chunk is
written; with a malformed key present, the malformed-key error wins instead. -/
theorem c10_no_data_key_name_error :
    ∀ (dic : CifDict) (st : BioStructure),
    (∀ e ∈ dic, e.1 ≠ "data_") →
    (∀ e ∈ dic, (splitDots e.1).length = 2) →
    save_dict dic st = .error (SaveError.nameErrorDataVal, []) := by
  intro dic st h1 h2
  obtain ⟨kls', hkls⟩ := buildKeyLists_no_data dic [] h1 h2
  unfold save_dict
  rw [hkls]

theorem c10_witness :
    save_dict [("_a.b", CifVal.str "1")] [] = .error (SaveError.nameErrorDataVal, []) :=
  c10_no_data_key_name_error [("_a.b", CifVal.str "1")] [] (by decide) (by decide)

/-! ## Claim C1 (revision-history stamp placement) -/

/-- C1 (code bug): the revision-history stamp is written inside the category
loop, once after every category block, not once at the end of the document —
a table with two categories receives the stamp twice (the first copy sitting
between the two category blocks), and a table with no category at all never
receives it. -/
theorem c1_revision_stamp_per_category :
    ((save_dict [("data_", CifVal.str "x"), ("_a.b", CifVal.str "1"), ("_c.d", CifVal.str "2")]
        []).toOption.map (fun l => l.count CIF_REVISION_DATE)) = some 2 ∧
    ((save_dict [("data_", CifVal.str "x")] []).toOption.map
        (fun l => l.count CIF_REVISION_DATE)) = some 0 := by decide

/-! ## Claim C9 (polymer-sequence listing) -/

theorem residueRows_eq (rs : List Residue) :
    ∀ (chainIdx k : Nat),
    residueRows chainIdx rs k =
      (withPos k (rs.filter (fun r => r.het = " "))).map
        (fun q => (chainIdx, q.1, q.2.resname, "n")) := by
  induction rs with
  | nil => intro chainIdx k; rfl
  | cons r rest ih =>
    intro chainIdx k
    by_cases h : r.het = " "
    · have hd : decide (r.het = " ") = true := by simpa using h
      simp only [residueRows, List.filter_cons, hd, if_true]
      rw [if_neg (show ¬ (r.het ≠ " ") by simpa using h)]
      simp only [withPos, List.map]
      rw [ih]
    · have hd : decide (r.het = " ") = false := by simpa using h
      simp only [residueRows, List.filter_cons, hd]
      rw [if_pos h]
      simp only [Bool.false_eq_true, if_false]
      exact ih chainIdx k

theorem chainRows_eq (chains : List Chain) :
    ∀ (ci : Nat),
    chainRows chains ci =
      (withPos ci chains).flatMap (fun p =>
        (withPos 1 (p.2.residues.filter (fun r => r.het = " "))).map
          (fun q => (p.1, q.1, q.2.resname, "n"))) := by
  induction chains with
  | nil => intro ci; rfl
  | cons ch rest ih =>
    intro ci
    simp only [chainRows, withPos, List.flatMap_cons]
    rw [residueRows_eq, ih]

theorem chainRows_append (l1 l2 : List Chain) :
    ∀ ci : Nat, chainRows (l1 ++ l2) ci = chainRows l1 ci ++ chainRows l2 (ci + l1.length) := by
  induction l1 with
  | nil => intro ci; simp [chainRows]
  | cons ch rest ih =>
    intro ci
    simp only [List.cons_append, chainRows, List.length_cons, List.append_eq]
    rw [ih (ci + 1), List.append_assoc]
    have harith : ci + 1 + rest.length = ci + (rest.length + 1) := by omega
    rw [harith]

theorem modelRows_eq_chainRows (st : BioStructure) :
    ∀ ci : Nat, modelRows st ci = chainRows st.flatten ci := by
  induction st with
  | nil => intro ci; rfl
  | cons m rest ih =>
    intro ci
    simp only [modelRows, List.flatten_cons, chainRows_append, ih]

/-- C9: the synthesized polymer-sequence listing is exactly the spec's: one
row per non-hetero residue with the 1-based chain position across all models
and chains, the 1-based non-hetero residue position within its chain, the
residue name and the constant flag; hetero residues produce no row and do not
advance the residue ordinal, while every chain advances the chain ordinal. -/
theorem c9_poly_seq_matches_spec : ∀ st : BioStructure, poly_seq st = specPolySeq st := by
  intro st
  unfold poly_seq specPolySeq
  rw [modelRows_eq_chainRows, chainRows_eq]
